import Mathlib

/-!
Shallow embedding of the kanban-board terminal application (src/src/main.rs)
and verification of its specification.

Modelling conventions:
- `Vec<T>` becomes `List T`; `usize` becomes `Nat`.
- Rust checked arithmetic and panicking operations are made explicit: an
  operation that can panic (usize underflow in `len() - 1`, `Vec::remove`
  out of bounds) returns `Option`, with `none` standing for the panic.
- `ListState` is modelled by the only piece of it the program logic reads,
  the optional selected index (`state.selected()`); `i.saturating_sub(1)`
  is Nat subtraction.
-/

namespace Kefir

/-- Statuses of an item, from `enum Status` in the source. -/
inductive Status where
  | ToDo
  | UpNext
  | InProgress
deriving DecidableEq

/-- An item of the board: the source stores tuples `(&str, usize, Status)`. -/
structure Item where
  label : String
  weight : Nat
  status : Status
deriving DecidableEq

/-- The `StatefulList` of the source, specialised (as in `App`) to items;
`selected` is `state.selected()` of the wrapped `ListState`. -/
structure StatefulList where
  selected : Option Nat
  items : List Item
deriving DecidableEq

/-- `StatefulList::next`. The `Some(i)` arm evaluates `self.items.len() - 1`,
which underflows (panics) when the list is empty; `none` models that panic. -/
def StatefulList.next (s : StatefulList) : Option StatefulList :=
  match s.selected with
  | none => some { s with selected := some 0 }
  | some i =>
    if s.items.length = 0 then none
    else some { s with selected := some (if s.items.length - 1 ≤ i then 0 else i + 1) }

/-- `StatefulList::previous`. The `i == 0` branch evaluates
`self.items.len() - 1`, which underflows (panics) on the empty list. -/
def StatefulList.previous (s : StatefulList) : Option StatefulList :=
  match s.selected with
  | none => some { s with selected := some 0 }
  | some i =>
    if i = 0 then
      if s.items.length = 0 then none
      else some { s with selected := some (s.items.length - 1) }
    else some { s with selected := some (i - 1) }

/-- `StatefulList::del_selected`: `Vec::remove(i)` panics when `i` is out of
bounds (`none`); otherwise the item at `i` is removed and the selection is set
to `Some(i.saturating_sub(1))`. -/
def StatefulList.del_selected (s : StatefulList) : Option StatefulList :=
  match s.selected with
  | none => some s
  | some i =>
    if i < s.items.length then
      some { selected := some (i - 1), items := s.items.eraseIdx i }
    else none

/-- `StatefulList::unselect`. -/
def StatefulList.unselect (s : StatefulList) : StatefulList :=
  { s with selected := none }

/-- The selection, when present, is a valid index of the backing sequence. -/
def StatefulList.selOk (s : StatefulList) : Bool :=
  match s.selected with
  | none => true
  | some i => i < s.items.length

/-- `next_status`, the forward cycle of the active column. -/
def next_status : Status → Status
  | Status.ToDo => Status.UpNext
  | Status.UpNext => Status.InProgress
  | Status.InProgress => Status.ToDo

/-- `prev_status`, the backward cycle of the active column. -/
def prev_status : Status → Status
  | Status.ToDo => Status.InProgress
  | Status.InProgress => Status.UpNext
  | Status.UpNext => Status.ToDo

/-- The board of the spec: the item list with its cursor plus the
`active_column` local of `run_app`. -/
structure Board where
  list : StatefulList
  active_column : Status
deriving DecidableEq

/-- Board-level `select_next`. -/
def Board.next (b : Board) : Option Board :=
  (b.list.next).map (fun l => { b with list := l })

/-- Board-level `select_previous`. -/
def Board.previous (b : Board) : Option Board :=
  (b.list.previous).map (fun l => { b with list := l })

/-- Board-level `delete_selected`. -/
def Board.del_selected (b : Board) : Option Board :=
  (b.list.del_selected).map (fun l => { b with list := l })

/-- Board-level `unselect`. -/
def Board.unselect (b : Board) : Board :=
  { b with list := b.list.unselect }

/-- `cycle_active_column_forward`: the `l` key runs `next_status`. -/
def Board.cycleForward (b : Board) : Board :=
  { b with active_column := next_status b.active_column }

/-- `cycle_active_column_backward`: the `h` key runs `prev_status`. -/
def Board.cycleBackward (b : Board) : Board :=
  { b with active_column := prev_status b.active_column }

/-- The three columns built by `ui`: each is a title paired with the filter
the source applies to `app.items.items` for the column of that title. -/
def uiColumns (items : List Item) : List (String × List Item) :=
  [(("To Do"), items.filter (fun i => i.status == Status.UpNext)),
   (("Up Next"), items.filter (fun i => i.status == Status.ToDo)),
   (("In Progress"), items.filter (fun i => i.status == Status.InProgress))]

end Kefir

namespace Kefir

/-- Claim C6: `next_status` composed three times is the identity on `Status`,
`next_status` composed with `prev_status` either way is the identity, and the
backward cycle is exactly ToDo → InProgress → UpNext → ToDo. -/
theorem C6_cycle_identities :
    (∀ s, next_status (next_status (next_status s)) = s) ∧
    (∀ s, prev_status (next_status s) = s) ∧
    (∀ s, next_status (prev_status s) = s) ∧
    prev_status Status.ToDo = Status.InProgress ∧
    prev_status Status.InProgress = Status.UpNext ∧
    prev_status Status.UpNext = Status.ToDo := by
  refine ⟨fun s => ?_, fun s => ?_, fun s => ?_, rfl, rfl, rfl⟩ <;> cases s <;> rfl

/-- Claim C3: for every item sequence, the `ui` column titled "To Do" holds
exactly the items of status `UpNext`, the column titled "Up Next" holds
exactly the items of status `ToDo` (the two titles and filters are swapped),
and the column titled "In Progress" holds exactly the items of status
`InProgress`. -/
theorem C3_column_filters_swapped (items : List Item) :
    (uiColumns items).lookup ("To Do") =
      some (items.filter (fun i => i.status == Status.UpNext)) ∧
    (uiColumns items).lookup ("Up Next") =
      some (items.filter (fun i => i.status == Status.ToDo)) ∧
    (uiColumns items).lookup ("In Progress") =
      some (items.filter (fun i => i.status == Status.InProgress)) ∧
    (∀ x, x ∈ items.filter (fun i => i.status == Status.UpNext) ↔
      x ∈ items ∧ x.status = Status.UpNext) ∧
    (∀ x, x ∈ items.filter (fun i => i.status == Status.ToDo) ↔
      x ∈ items ∧ x.status = Status.ToDo) ∧
    (∀ x, x ∈ items.filter (fun i => i.status == Status.InProgress) ↔
      x ∈ items ∧ x.status = Status.InProgress) := by
  refine ⟨?_, ?_, ?_, fun x => ?_, fun x => ?_, fun x => ?_⟩
  · simp [uiColumns, List.lookup]
  · simp [uiColumns, List.lookup]
  · simp [uiColumns, List.lookup]
  all_goals simp [List.mem_filter]

/-- A concrete item used in witnesses and counterexamples. -/
def item0 : Item := { label := ("Item0"), weight := 1, status := Status.ToDo }

/-- A second concrete item used in witnesses and counterexamples. -/
def item1 : Item := { label := ("Item1"), weight := 2, status := Status.ToDo }

/-- Claim C1 fails as stated: deleting from a one-item list with the
selection at 0 does empty the sequence, but the selection becomes
`Some(0.saturating_sub(1)) = Some(0)`, not "no selection". -/
theorem C1_counterexample :
    (StatefulList.del_selected { selected := some 0, items := [item0] }).map
      (fun s => s.items) = some [] ∧
    (StatefulList.del_selected { selected := some 0, items := [item0] }).map
      (fun s => s.selected) = some (some 0) := by
  constructor <;> rfl

/-- Claim C1 amended: `delete_selected()` on a sequence of length 1 with the
selection at index 0 results in an empty item sequence with the selection
left at index 0, not cleared to "no selection". -/
theorem C1_delete_last_item (it : Item) :
    StatefulList.del_selected { selected := some 0, items := [it] } =
      some { selected := some 0, items := [] } := by
  rfl

/-- Claim C2 fails as stated: on an empty sequence with a (stale) selection
at index 0 — reachable by deleting the last remaining item —
`select_next()`, `select_previous()` and `delete_selected()` all panic, and
on an empty sequence with no selection `select_next()` is not a no-op: it
sets the selection to index 0. -/
theorem C2_counterexample :
    StatefulList.next { selected := some 0, items := [] } = none ∧
    StatefulList.next { selected := none, items := [] } =
      some { selected := some 0, items := [] } ∧
    StatefulList.previous { selected := some 0, items := [] } = none ∧
    StatefulList.del_selected { selected := some 0, items := [] } = none := by
  refine ⟨rfl, rfl, rfl, rfl⟩

/-- Claim C2 amended: on every state whose selection, when present, is in
bounds of the item sequence, `select_next()`, `select_previous()` and
`delete_selected()` never panic, `delete_selected()` with no selection is a
no-op, and `unselect()` always just clears the selection; but the empty
sequence is not guarded: `select_next()` there with no selection selects
index 0 instead of being a no-op, and with a selection present it panics. -/
theorem C2_totality_on_ok_states (s : StatefulList) (hsel : s.selOk = true) :
    s.next.isSome ∧ s.previous.isSome ∧ s.del_selected.isSome ∧
    (s.selected = none → s.del_selected = some s) ∧
    s.unselect = { s with selected := none } ∧
    StatefulList.next { selected := none, items := [] } =
      some { selected := some 0, items := [] } ∧
    StatefulList.next { selected := some 0, items := [] } = none := by
  obtain ⟨sel, items⟩ := s
  cases sel with
  | none =>
    refine ⟨rfl, rfl, rfl, fun _ => rfl, rfl, rfl, rfl⟩
  | some i =>
    simp only [StatefulList.selOk, decide_eq_true_eq] at hsel
    have hlen : items.length ≠ 0 := by omega
    refine ⟨?_, ?_, ?_, ?_, rfl, rfl, rfl⟩
    · simp [StatefulList.next, hlen]
    · simp only [StatefulList.previous]
      split <;> simp [hlen]
    · simp [StatefulList.del_selected, hsel]
    · intro h; cases h

/-- Witness for C2: a concrete in-bounds state. -/
theorem C2_totality_on_ok_states_witness :
    let s : StatefulList := { selected := some 0, items := [item0] }
    s.next.isSome ∧ s.previous.isSome ∧ s.del_selected.isSome ∧
    (s.selected = none → s.del_selected = some s) ∧
    s.unselect = { s with selected := none } ∧
    StatefulList.next { selected := none, items := [] } =
      some { selected := some 0, items := [] } ∧
    StatefulList.next { selected := some 0, items := [] } = none :=
  C2_totality_on_ok_states { selected := some 0, items := [item0] } (by decide)

/-- Claim C5 fails as stated: from the "no selection" state on a two-item
sequence, `select_next()` then `select_previous()` yields a selection at
index 1, not the prior "no selection". -/
theorem C5_counterexample :
    (StatefulList.next { selected := none, items := [item0, item1] }).bind
      StatefulList.previous =
      some { selected := some 1, items := [item0, item1] } ∧
    (StatefulList.next { selected := none, items := [item0, item1] }).bind
      StatefulList.previous ≠
      some { selected := none, items := [item0, item1] } := by
  constructor
  · rfl
  · decide

/-- Claim C5 amended: on every state with an existing in-bounds selection,
`select_next()` then `select_previous()`, and `select_previous()` then
`select_next()`, restore the prior selection; from the "no selection" state
the compositions instead leave some selection set, so the inverse law does
not cover that state. -/
theorem C5_next_previous_inverse (items : List Item) (i : Nat)
    (hi : i < items.length) :
    (StatefulList.next { selected := some i, items := items }).bind
      StatefulList.previous = some { selected := some i, items := items } ∧
    (StatefulList.previous { selected := some i, items := items }).bind
      StatefulList.next = some { selected := some i, items := items } := by
  have hlen : items.length ≠ 0 := by omega
  have hne0 : items ≠ [] := by intro hE; subst hE; simp at hi
  constructor
  · simp only [StatefulList.next, if_neg hlen]
    by_cases h : items.length - 1 ≤ i
    · have hi0 : i = items.length - 1 := by omega
      simp [h, Option.bind, StatefulList.previous, hlen, hi0, hne0]
    · simp [h, Option.bind, StatefulList.previous, Nat.succ_ne_zero]
  · simp only [StatefulList.previous]
    by_cases h : i = 0
    · have harith : items.length - 1 ≤ items.length - 1 := le_refl _
      simp only [h, if_pos rfl, if_neg hlen, Option.bind, StatefulList.next]
      simp [hlen, harith, hne0]
      omega
    · simp only [if_neg h, Option.bind, StatefulList.next, if_neg hlen]
      have h2 : ¬ (items.length - 1 ≤ i - 1) := by omega
      have h3 : i - 1 + 1 = i := by omega
      simp [h2, h3]

/-- Witness for C5: the inverse laws at a concrete two-item state. -/
theorem C5_next_previous_inverse_witness :
    (StatefulList.next { selected := some 1, items := [item0, item1] }).bind
      StatefulList.previous =
      some { selected := some 1, items := [item0, item1] } ∧
    (StatefulList.previous { selected := some 1, items := [item0, item1] }).bind
      StatefulList.next =
      some { selected := some 1, items := [item0, item1] } :=
  C5_next_previous_inverse [item0, item1] 1 (by decide)

/-- Claim C8: deleting the selection at a valid index `i` of a sequence that
stays non-empty removes the item at `i` (the sequence becomes the original
with index `i` erased) and re-selects `i - 1` when `i > 0`, and 0 when
`i = 0`. -/
theorem C8_delete_reselects (items : List Item) (i : Nat)
    (hi : i < items.length) (hne2 : items.eraseIdx i ≠ []) :
    StatefulList.del_selected { selected := some i, items := items } =
      some { selected := some (if i = 0 then 0 else i - 1),
             items := items.eraseIdx i } := by
  have hsel : (if i = 0 then 0 else i - 1) = i - 1 := by
    by_cases h : i = 0 <;> simp [h]
  have hkeep : items.eraseIdx i ≠ [] := hne2
  simp [StatefulList.del_selected, hi, hsel]

/-- Witness for C8: deleting index 1 of a two-item sequence. -/
theorem C8_delete_reselects_witness :
    StatefulList.del_selected { selected := some 1, items := [item0, item1] } =
      some { selected := some (if 1 = 0 then 0 else 1 - 1),
             items := List.eraseIdx [item0, item1] 1 } :=
  C8_delete_reselects [item0, item1] 1 (by decide) (by decide)

/-- A log entry: the source stores tuples `(&str, &str)` of label and
severity in `App.events`. -/
structure LogEntry where
  label : String
  severity : String
deriving DecidableEq

/-- `App::on_tick`: `events.remove(0)` panics on an empty vector (`none`);
otherwise the removed front entry is pushed at the back. -/
def on_tick (events : List LogEntry) : Option (List LogEntry) :=
  match events with
  | [] => none
  | e :: rest => some (rest ++ [e])

/-- Iterated `on_tick`, threading the possible panic. -/
def on_tickN : Nat → List LogEntry → Option (List LogEntry)
  | 0, l => some l
  | n + 1, l => (on_tick l).bind (on_tickN n)

/-- One tick of a non-empty queue is a rotation by one. -/
theorem on_tick_eq_rotate (l : List LogEntry) (hne : l ≠ []) :
    on_tick l = some (l.rotate 1) := by
  cases l with
  | nil => cases hne rfl
  | cons e rest =>
    rw [show (1 : Nat) = 0 + 1 from rfl, List.rotate_cons_succ, List.rotate_zero]
    rfl

/-- Iterated ticks of a non-empty queue rotate by the tick count. -/
theorem on_tickN_eq_rotate (k : Nat) (l : List LogEntry) (hne : l ≠ []) :
    on_tickN k l = some (l.rotate k) := by
  induction k generalizing l with
  | zero => rw [List.rotate_zero]; rfl
  | succ n ih =>
    rw [on_tickN, on_tick_eq_rotate l hne]
    have hne2 : l.rotate 1 ≠ [] := fun h => hne (List.rotate_eq_nil_iff.mp h)
    show on_tickN n (l.rotate 1) = some (l.rotate (n + 1))
    rw [ih (l.rotate 1) hne2, List.rotate_rotate]
    congr 2
    omega

/-- Claim C7: one `advance()` of a non-empty log queue moves the front entry
to the back with all other entries shifted forward one position, preserves
the count and the multiset of entries, and `advance()` applied exactly `m`
times (m = queue length) restores the original order. -/
theorem C7_log_queue_rotation (e : LogEntry) (es : List LogEntry) :
    on_tick (e :: es) = some (es ++ [e]) ∧
    (es ++ [e]).length = (e :: es).length ∧
    Multiset.ofList (es ++ [e]) = Multiset.ofList (e :: es) ∧
    on_tickN (e :: es).length (e :: es) = some (e :: es) := by
  refine ⟨rfl, by simp, Multiset.coe_eq_coe.mpr (List.perm_append_singleton e es), ?_⟩
  rw [on_tickN_eq_rotate (e :: es).length (e :: es) (by simp), List.rotate_length]

/-- Iterated `select_next`, threading the possible panic. -/
def StatefulList.nextN : Nat → StatefulList → Option StatefulList
  | 0, s => some s
  | n + 1, s => (s.next).bind (StatefulList.nextN n)

/-- One `next` step from an in-bounds selection advances the selected index
by one modulo the sequence length. -/
theorem next_selected_mod (items : List Item) (i : Nat) (hi : i < items.length) :
    StatefulList.next { selected := some i, items := items } =
      some { selected := some ((i + 1) % items.length), items := items } := by
  have hlen : items.length ≠ 0 := by omega
  have hidx : (if items.length ≤ i + 1 then 0 else i + 1) = (i + 1) % items.length := by
    by_cases h : items.length ≤ i + 1
    · have hlast : i + 1 = items.length := by omega
      simp [h, hlast]
    · have hlt : i + 1 < items.length := by omega
      simp [h, Nat.mod_eq_of_lt hlt]
  simp [StatefulList.next, hlen, hidx]

/-- Iterated `next` from an in-bounds selection adds the step count to the
selected index modulo the sequence length. -/
theorem nextN_selected_mod (items : List Item) (k : Nat) :
    ∀ i, i < items.length →
      StatefulList.nextN k { selected := some i, items := items } =
        some { selected := some ((i + k) % items.length), items := items } := by
  induction k with
  | zero => intro i hi; simp [StatefulList.nextN, Nat.mod_eq_of_lt hi]
  | succ n ih =>
    intro i hi
    have hlen0 : 0 < items.length := by omega
    rw [StatefulList.nextN, next_selected_mod items i hi]
    have hlt : (i + 1) % items.length < items.length := Nat.mod_lt _ hlen0
    show StatefulList.nextN n
        { selected := some ((i + 1) % items.length), items := items } = _
    rw [ih ((i + 1) % items.length) hlt]
    congr 3
    rw [Nat.mod_add_mod]
    congr 1
    omega

/-- Claim C9: on a non-empty sequence of length `n`, applying `select_next()`
exactly `n` times from any in-bounds selection returns the selection to its
starting index. -/
theorem C9_next_cycles (items : List Item) (i : Nat) (hne : items ≠ [])
    (hi : i < items.length) :
    StatefulList.nextN items.length { selected := some i, items := items } =
      some { selected := some i, items := items } := by
  have hkeep : items ≠ [] := hne
  rw [nextN_selected_mod items items.length i hi, Nat.add_mod_right,
    Nat.mod_eq_of_lt hi]

/-- Witness for C9: two full cycles of a two-item sequence. -/
theorem C9_next_cycles_witness :
    StatefulList.nextN (List.length [item0, item1])
        { selected := some 1, items := [item0, item1] } =
      some { selected := some 1, items := [item0, item1] } :=
  C9_next_cycles [item0, item1] 1 (by decide) (by decide)

/-- The full-sequence selection invariant: when the backing sequence is
non-empty, an existing selection indexes the full backing sequence. -/
def StatefulList.invFull (s : StatefulList) : Bool :=
  match s.selected with
  | none => true
  | some i => s.items.isEmpty || decide (i < s.items.length)

/-- Board-level full-sequence invariant; the active column plays no role in
the indexing the operations perform. -/
def Board.inv (b : Board) : Bool :=
  b.list.invFull

/-- The invariant exactly as claim C4 states it: when the backing sequence is
non-empty, an existing selection is within bounds of the view obtained by
filtering the items on the active column status. -/
def Board.specInvariant (b : Board) : Bool :=
  match b.list.selected with
  | none => true
  | some i =>
    b.list.items.isEmpty ||
      decide (i < (b.list.items.filter
        (fun it => it.status == b.active_column)).length)

/-- A concrete board used by the C4 counterexample: one ToDo item, selected
at index 0, active column ToDo. -/
def sampleBoard : Board :=
  { list := { selected := some 0, items := [item0] },
    active_column := Status.ToDo }

/-- Claim C4 fails as stated: the filtered-view invariant holds on
`sampleBoard` but is destroyed by the Board operation
`cycle_active_column_forward()`, which changes the filter while selection
and items stay fixed: the selection indexes the full sequence, not the
filtered view. -/
theorem C4_counterexample :
    Board.specInvariant sampleBoard = true ∧
    Board.specInvariant (Board.cycleForward sampleBoard) = false := by
  constructor <;> rfl

/-- `next` re-establishes the full-sequence invariant whenever it returns. -/
theorem invFull_next (s t : StatefulList) (ht : s.next = some t) :
    t.invFull = true := by
  obtain ⟨sel, items⟩ := s
  cases sel with
  | none =>
    simp only [StatefulList.next, Option.some.injEq] at ht
    subst ht
    cases items <;> simp [StatefulList.invFull]
  | some i =>
    simp only [StatefulList.next] at ht
    by_cases hlen : items.length = 0
    · rw [if_pos hlen] at ht
      simp at ht
    · rw [if_neg hlen, Option.some.injEq] at ht
      subst ht
      have hlt : (if items.length - 1 ≤ i then 0 else i + 1) < items.length := by
        by_cases hc : items.length - 1 ≤ i
        · rw [if_pos hc]; omega
        · rw [if_neg hc]; omega
      simp only [StatefulList.invFull, Bool.or_eq_true, decide_eq_true_eq]
      exact Or.inr hlt

/-- `previous` preserves the full-sequence invariant. -/
theorem invFull_previous (s t : StatefulList) (hs : s.invFull = true)
    (ht : s.previous = some t) : t.invFull = true := by
  obtain ⟨sel, items⟩ := s
  cases sel with
  | none =>
    simp only [StatefulList.previous, Option.some.injEq] at ht
    subst ht
    cases items <;> simp [StatefulList.invFull]
  | some i =>
    simp only [StatefulList.previous] at ht
    by_cases hz : i = 0
    · rw [if_pos hz] at ht
      by_cases hlen : items.length = 0
      · rw [if_pos hlen] at ht
        simp at ht
      · rw [if_neg hlen, Option.some.injEq] at ht
        subst ht
        have hlt : items.length - 1 < items.length := by omega
        simp [StatefulList.invFull, hlt]
    · rw [if_neg hz, Option.some.injEq] at ht
      subst ht
      simp only [StatefulList.invFull] at hs ⊢
      cases hemp : items.isEmpty with
      | true => simp [hemp]
      | false =>
        rw [hemp] at hs
        simp only [Bool.false_or, decide_eq_true_eq] at hs
        have hlt : i - 1 < items.length := by omega
        simp [hemp, hlt]

/-- `del_selected` re-establishes the full-sequence invariant whenever it
returns: the new selection is clamped, never cleared. -/
theorem invFull_del (s t : StatefulList) (ht : s.del_selected = some t) :
    t.invFull = true := by
  obtain ⟨sel, items⟩ := s
  cases sel with
  | none =>
    simp only [StatefulList.del_selected, Option.some.injEq] at ht
    subst ht
    rfl
  | some i =>
    simp only [StatefulList.del_selected] at ht
    by_cases hib : i < items.length
    · rw [if_pos hib, Option.some.injEq] at ht
      subst ht
      by_cases hE : items.eraseIdx i = []
      · simp [StatefulList.invFull, hE]
      · have hlen : (items.eraseIdx i).length = items.length - 1 :=
          List.length_eraseIdx_of_lt hib
        have hpos : 0 < (items.eraseIdx i).length := List.length_pos.mpr hE
        have hlt : i - 1 < (items.eraseIdx i).length := by omega
        simp [StatefulList.invFull, hlt]
    · rw [if_neg hib] at ht
      simp at ht

/-- Claim C4 amended: the invariant the Board operations actually maintain is
over the full backing sequence: if, whenever the sequence is non-empty, an
existing selection is within bounds of the full sequence, then every Board
operation (select next/previous, delete, unselect, cycle the active column
either way) that returns re-establishes that invariant, and deletion clamps
the selection to `index - 1` (saturating), never clearing it. -/
theorem C4_invariant_full_sequence (b : Board) (h : b.inv = true) :
    (∀ b2, b.next = some b2 → b2.inv = true) ∧
    (∀ b2, b.previous = some b2 → b2.inv = true) ∧
    (∀ b2, b.del_selected = some b2 → b2.inv = true) ∧
    b.unselect.inv = true ∧
    b.cycleForward.inv = true ∧
    b.cycleBackward.inv = true ∧
    (∀ b2 i, b.list.selected = some i → b.del_selected = some b2 →
      b2.list.selected = some (i - 1)) := by
  obtain ⟨l, ac⟩ := b
  refine ⟨?_, ?_, ?_, ?_, ?_, ?_, ?_⟩
  · intro b2 hb2
    rw [Board.next, Option.map_eq_some'] at hb2
    obtain ⟨t, htt, hb⟩ := hb2
    subst hb
    exact invFull_next l t htt
  · intro b2 hb2
    rw [Board.previous, Option.map_eq_some'] at hb2
    obtain ⟨t, htt, hb⟩ := hb2
    subst hb
    exact invFull_previous l t h htt
  · intro b2 hb2
    rw [Board.del_selected, Option.map_eq_some'] at hb2
    obtain ⟨t, htt, hb⟩ := hb2
    subst hb
    exact invFull_del l t htt
  · rfl
  · exact h
  · exact h
  · intro b2 i hsel hb2
    rw [Board.del_selected, Option.map_eq_some'] at hb2
    obtain ⟨t, htt, hb⟩ := hb2
    subst hb
    obtain ⟨sel, items⟩ := l
    simp only at hsel
    subst hsel
    simp only [StatefulList.del_selected] at htt
    by_cases hib : i < items.length
    · rw [if_pos hib, Option.some.injEq] at htt
      subst htt
      rfl
    · rw [if_neg hib] at htt
      simp at htt

/-- Witness for C4: the amended invariant at `sampleBoard`. -/
theorem C4_invariant_full_sequence_witness :
    (∀ b2, sampleBoard.next = some b2 → b2.inv = true) ∧
    (∀ b2, sampleBoard.previous = some b2 → b2.inv = true) ∧
    (∀ b2, sampleBoard.del_selected = some b2 → b2.inv = true) ∧
    sampleBoard.unselect.inv = true ∧
    sampleBoard.cycleForward.inv = true ∧
    sampleBoard.cycleBackward.inv = true ∧
    (∀ b2 i, sampleBoard.list.selected = some i →
      sampleBoard.del_selected = some b2 → b2.list.selected = some (i - 1)) :=
  C4_invariant_full_sequence sampleBoard (by decide)

/-- Key codes the event loop distinguishes (`crossterm::event::KeyCode`,
restricted to the constructors `run_app` matches on; `Other` stands for
every other key). -/
inductive KeyCode where
  | Char (c : Char)
  | Left
  | Down
  | Up
  | Other
deriving DecidableEq

/-- The `App` state the loop mutates: the item list and the event log. -/
structure AppState where
  items : StatefulList
  events : List LogEntry
deriving DecidableEq

/-- Result of dispatching one key press: a request to terminate (`q`) or the
updated state. -/
inductive KeyResult where
  | quit
  | cont (app : AppState) (ac : Status)
deriving DecidableEq

/-- The key dispatch table of `run_app` (the `match key.code` block). A panic
of the dispatched list operation propagates as `none`. -/
def handleKey (app : AppState) (ac : Status) (k : KeyCode) : Option KeyResult :=
  match k with
  | KeyCode.Left =>
    some (KeyResult.cont { app with items := app.items.unselect } ac)
  | KeyCode.Down =>
    (app.items.next).map (fun l => KeyResult.cont { app with items := l } ac)
  | KeyCode.Up =>
    (app.items.previous).map (fun l => KeyResult.cont { app with items := l } ac)
  | KeyCode.Char c =>
    if c = 'q' then some KeyResult.quit
    else if c = 'j' then
      (app.items.next).map (fun l => KeyResult.cont { app with items := l } ac)
    else if c = 'k' then
      (app.items.previous).map (fun l => KeyResult.cont { app with items := l } ac)
    else if c = 'l' then some (KeyResult.cont app (next_status ac))
    else if c = 'h' then some (KeyResult.cont app (prev_status ac))
    else if c = 'x' then
      (app.items.del_selected).map
        (fun l => KeyResult.cont { app with items := l } ac)
    else some (KeyResult.cont app ac)
  | KeyCode.Other => some (KeyResult.cont app ac)

/-- `tick_rate`, in milliseconds. -/
def tick_rate : Nat := 250

/-- `Duration::checked_sub`, on milliseconds. -/
def checked_sub (a b : Nat) : Option Nat :=
  if b ≤ a then some (a - b) else none

/-- The poll timeout of one loop iteration:
`tick_rate.checked_sub(last_tick.elapsed()).unwrap_or(Duration::from_secs(0))`. -/
def loopTimeout (elapsed : Nat) : Nat :=
  (checked_sub tick_rate elapsed).getD 0

/-- Outcome of one loop iteration. `tickFired` records whether the tick
branch ran; the source resets `last_tick` exactly there and nowhere else. -/
structure IterOutcome where
  quit : Bool
  app : AppState
  active : Status
  tickFired : Bool
deriving DecidableEq

/-- The input phase of one iteration: if the poll yielded a key press,
dispatch it; otherwise the state passes through unchanged. -/
def keyStep (app : AppState) (ac : Status) (key : Option KeyCode) :
    Option KeyResult :=
  match key with
  | none => some (KeyResult.cont app ac)
  | some k => handleKey app ac k

/-- One iteration of the `run_app` loop after the draw: dispatch the polled
key event, if any, then run the tick check on the elapsed time read at the
check. On `q` the function returns before the tick check. -/
def runIteration (app : AppState) (ac : Status) (key : Option KeyCode)
    (elapsedAtCheck : Nat) : Option IterOutcome :=
  (keyStep app ac key).bind
    fun r =>
      match r with
      | KeyResult.quit =>
        some { quit := true, app := app, active := ac, tickFired := false }
      | KeyResult.cont app2 ac2 =>
        if tick_rate ≤ elapsedAtCheck then
          (on_tick app2.events).map fun ev2 =>
            { quit := false, app := { app2 with events := ev2 },
              active := ac2, tickFired := true }
        else
          some { quit := false, app := app2, active := ac2, tickFired := false }

/-- Key dispatch never touches the event log: every continuing branch keeps
`app.events`. -/
theorem handleKey_preserves_events (app : AppState) (ac : Status) (k : KeyCode)
    (app2 : AppState) (ac2 : Status)
    (h : handleKey app ac k = some (KeyResult.cont app2 ac2)) :
    app2.events = app.events := by
  cases k with
  | Left =>
    simp only [handleKey, Option.some.injEq, KeyResult.cont.injEq] at h
    rw [← h.1]
  | Down =>
    rw [handleKey, Option.map_eq_some'] at h
    obtain ⟨l, hl, hc⟩ := h
    injection hc with h1 h2
    rw [← h1]
  | Up =>
    rw [handleKey, Option.map_eq_some'] at h
    obtain ⟨l, hl, hc⟩ := h
    injection hc with h1 h2
    rw [← h1]
  | Other =>
    simp only [handleKey, Option.some.injEq, KeyResult.cont.injEq] at h
    rw [← h.1]
  | Char c =>
    rw [handleKey] at h
    split_ifs at h with h1 h2 h3 h4 h5 h6
    · simp at h
    · rw [Option.map_eq_some'] at h
      obtain ⟨l, hl, hc⟩ := h
      injection hc with hA hB
      rw [← hA]
    · rw [Option.map_eq_some'] at h
      obtain ⟨l, hl, hc⟩ := h
      injection hc with hA hB
      rw [← hA]
    · simp only [Option.some.injEq, KeyResult.cont.injEq] at h
      rw [← h.1]
    · simp only [Option.some.injEq, KeyResult.cont.injEq] at h
      rw [← h.1]
    · rw [Option.map_eq_some'] at h
      obtain ⟨l, hl, hc⟩ := h
      injection hc with hA hB
      rw [← hA]
    · simp only [Option.some.injEq, KeyResult.cont.injEq] at h
      rw [← h.1]

/-- Claim C10: the poll timeout of every iteration equals
`max(0, tick_rate − elapsed_since_last_tick)`; and on every iteration that
stays in the loop (no quit), whatever key event arrived or none at all, the
tick branch fires (advancing the log queue once and resetting the tick
clock, recorded by `tickFired`) exactly when the elapsed time has reached
`tick_rate` — input handling neither triggers nor suppresses the tick and
never resets the tick clock. -/
theorem C10_loop_timing (app : AppState) (ac : Status) (key : Option KeyCode)
    (e : Nat) (o : IterOutcome) (hrun : runIteration app ac key e = some o)
    (hq : o.quit = false) :
    (loopTimeout e : Int) = max 0 ((tick_rate : Int) - (e : Int)) ∧
    o.tickFired = decide (tick_rate ≤ e) ∧
    (tick_rate ≤ e → on_tick app.events = some o.app.events) ∧
    (¬ tick_rate ≤ e → o.app.events = app.events) := by
  have htimeout : (loopTimeout e : Int) =
      max 0 ((tick_rate : Int) - (e : Int)) := by
    rw [loopTimeout, checked_sub]
    split_ifs with h <;> simp only [Option.getD_some, Option.getD_none] <;>
      omega
  have hcont : ∃ app2 ac2,
      keyStep app ac key = some (KeyResult.cont app2 ac2) ∧
      app2.events = app.events := by
    cases key with
    | none => exact ⟨app, ac, rfl, rfl⟩
    | some k =>
      cases hk : handleKey app ac k with
      | none =>
        rw [runIteration, keyStep, hk] at hrun
        simp at hrun
      | some r =>
        cases r with
        | quit =>
          rw [runIteration, keyStep, hk] at hrun
          simp only [Option.some_bind] at hrun
          rw [← Option.some.inj hrun] at hq
          simp at hq
        | cont app2 ac2 =>
          refine ⟨app2, ac2, ?_, handleKey_preserves_events app ac k app2 ac2 hk⟩
          rw [keyStep, hk]
  obtain ⟨app2, ac2, hk2, hev⟩ := hcont
  rw [runIteration, hk2, Option.some_bind] at hrun
  dsimp only at hrun
  by_cases htick : tick_rate ≤ e
  · rw [if_pos htick, Option.map_eq_some'] at hrun
    obtain ⟨ev2, hev2, ho⟩ := hrun
    rw [← ho]
    refine ⟨htimeout, by simp [htick], fun _ => ?_, fun hcontra => ?_⟩
    · rw [hev] at hev2
      exact hev2
    · exact absurd htick hcontra
  · rw [if_neg htick, Option.some.injEq] at hrun
    rw [← hrun]
    refine ⟨htimeout, by simp [htick], fun hcontra => ?_, fun _ => hev⟩
    exact absurd hcontra htick

/-- A concrete log entry used by the C10 witness. -/
def log0 : LogEntry := { label := ("Event1"), severity := ("INFO") }

/-- A concrete application state used by the C10 witness. -/
def sampleApp : AppState :=
  { items := { selected := some 0, items := [item0] }, events := [log0] }

/-- The iteration outcome the C10 witness reaches. -/
def sampleOutcome : IterOutcome :=
  { quit := false,
    app := { items := { selected := some 0, items := [item0] },
             events := [log0] },
    active := Status.ToDo,
    tickFired := true }

/-- Witness for C10: the key `j` arrives with 300 ms elapsed; the tick fires
and the one-entry log rotates to itself. -/
theorem C10_loop_timing_witness :
    (loopTimeout 300 : Int) = max 0 ((tick_rate : Int) - (300 : Int)) ∧
    sampleOutcome.tickFired = decide (tick_rate ≤ 300) ∧
    (tick_rate ≤ 300 →
      on_tick sampleApp.events = some sampleOutcome.app.events) ∧
    (¬ tick_rate ≤ 300 → sampleOutcome.app.events = sampleApp.events) :=
  C10_loop_timing sampleApp Status.ToDo (some (KeyCode.Char 'j')) 300
    sampleOutcome (by decide) (by decide)

end Kefir
